import Mathlib

/-!
Verification development for the Quarto rules engine (src/quarto.rs).

The Rust source is shallowly embedded as follows:
* Rust strings are byte lists (`List Nat`); ASCII characters appear as their
  byte values (`'B' = 66`, space = 32, newline = 10, carriage return = 13).
* `Result<T, QuartoError>` becomes `Except QuartoError T`.
* A Rust function that can panic (string slicing at a non-character boundary,
  a failing `assert!`) is embedded with result type `Option _`, where `none`
  models the panic and `some r` the normal outcome `r`.
* The fixed 4 by 4 board `[[Option<Piece>; 4]; 4]` becomes the total function
  type `Fin 4 → Fin 4 → Option Piece`.
-/

namespace Quarto

instance {ε α : Type} [DecidableEq ε] [DecidableEq α] : DecidableEq (Except ε α) := fun a b =>
  match a, b with
  | .error e, .error f =>
    if h : e = f then .isTrue (congrArg Except.error h)
    else .isFalse fun hh => h (Except.error.inj hh)
  | .ok x, .ok y =>
    if h : x = y then .isTrue (congrArg Except.ok h)
    else .isFalse fun hh => h (Except.ok.inj hh)
  | .error _, .ok _ => .isFalse fun hh => Except.noConfusion hh
  | .ok _, .error _ => .isFalse fun hh => Except.noConfusion hh

/-- Error enum `QuartoError` of quarto.rs. -/
inductive QuartoError
  | InvalidPieceError
  | FileExists
  | OutOfRange
  | InvalidQuarto
  | AnyOther
deriving DecidableEq

/-- Piece color attribute (enum `Color`). -/
inductive Color | Brown | White
deriving DecidableEq, Fintype

/-- Piece height attribute (enum `Height`). -/
inductive Height | Short | Tall
deriving DecidableEq, Fintype

/-- Piece shape attribute (enum `Shape`). -/
inductive Shape | Circle | Square
deriving DecidableEq, Fintype

/-- Piece top attribute (enum `Top`). -/
inductive Top | Flat | Hole
deriving DecidableEq, Fintype

/-- `impl From<Color> for String`: the single-byte code of a color. -/
def Color.toByte : Color → Nat
  | .Brown => 66
  | .White => 87

/-- `impl TryFrom<&str> for Color` on a single byte. -/
def Color.tryFromByte (b : Nat) : Except QuartoError Color :=
  if b = 66 then .ok .Brown
  else if b = 87 then .ok .White
  else .error .InvalidPieceError

/-- `impl From<Height> for String`: the single-byte code of a height. -/
def Height.toByte : Height → Nat
  | .Short => 83
  | .Tall => 84

/-- `impl TryFrom<&str> for Height` on a single byte. -/
def Height.tryFromByte (b : Nat) : Except QuartoError Height :=
  if b = 83 then .ok .Short
  else if b = 84 then .ok .Tall
  else .error .InvalidPieceError

/-- `impl From<Shape> for String`: the single-byte code of a shape. -/
def Shape.toByte : Shape → Nat
  | .Circle => 67
  | .Square => 83

/-- `impl TryFrom<&str> for Shape` on a single byte. -/
def Shape.tryFromByte (b : Nat) : Except QuartoError Shape :=
  if b = 67 then .ok .Circle
  else if b = 83 then .ok .Square
  else .error .InvalidPieceError

/-- `impl From<Top> for String`: the single-byte code of a top. -/
def Top.toByte : Top → Nat
  | .Flat => 70
  | .Hole => 72

/-- `impl TryFrom<&str> for Top` on a single byte. -/
def Top.tryFromByte (b : Nat) : Except QuartoError Top :=
  if b = 70 then .ok .Flat
  else if b = 72 then .ok .Hole
  else .error .InvalidPieceError

/-- `struct Piece { color, height, shape, top }`. -/
structure Piece where
  color : Color
  height : Height
  shape : Shape
  top : Top
deriving DecidableEq, Fintype

/-- `impl From<Piece> for String`: the four-byte code of a piece, in the
fixed order color, height, shape, top. -/
def pieceBytes (p : Piece) : List Nat :=
  [p.color.toByte, p.height.toByte, p.shape.toByte, p.top.toByte]

/-- Rust `str::is_char_boundary` fails at index `i` exactly when the byte at
`i` is a UTF-8 continuation byte (`0x80 ≤ b < 0xC0`).  `contAt s i = true`
means slicing at `i` would panic. -/
def contAt (s : List Nat) (i : Nat) : Bool :=
  match s.get? i with
  | some b => decide (128 ≤ b ∧ b < 192)
  | none => false

/-- `impl TryFrom<String> for Piece`.  After the length-4 check the Rust code
slices `&text[0..1]`, `&text[1..2]`, `&text[2..3]`, `&text[3..4]`; each slice
panics (`none`) when its end point is not a character boundary.  Positions 0
and 4 are always boundaries of a 4-byte string. -/
def pieceTryFrom (text : List Nat) : Option (Except QuartoError Piece) :=
  if text.length ≠ 4 then some (.error .InvalidPieceError)
  else if contAt text 1 || contAt text 2 || contAt text 3 then none
  else some (do
    let c ← Color.tryFromByte (text.getD 0 0)
    let h ← Height.tryFromByte (text.getD 1 0)
    let s ← Shape.tryFromByte (text.getD 2 0)
    let t ← Top.tryFromByte (text.getD 3 0)
    return ⟨c, h, s, t⟩)

/-- `type CellState = Option<Piece>` and `BoardState([[CellState; 4]; 4])`. -/
def Board : Type := Fin 4 → Fin 4 → Option Piece

/-- A board is determined by its 16 cells read in row-major order. -/
def boardCellList (b : Board) : List (Option Piece) :=
  [b 0 0, b 0 1, b 0 2, b 0 3,
   b 1 0, b 1 1, b 1 2, b 1 3,
   b 2 0, b 2 1, b 2 2, b 2 3,
   b 3 0, b 3 1, b 3 2, b 3 3]

theorem board_ext_iff (b c : Board) : b = c ↔ boardCellList b = boardCellList c := by
  constructor
  · intro h
    rw [h]
  · intro h
    simp only [boardCellList, List.cons.injEq, and_true] at h
    funext i j
    fin_cases i <;> fin_cases j <;> simp_all

instance : DecidableEq Board := fun b c =>
  decidable_of_iff (boardCellList b = boardCellList c) (board_ext_iff b c).symm

/-- The all-empty board, `BoardState([[CellState::None; 4]; 4])`. -/
def emptyBoard : Board := fun _ _ => none

/-- Rust `str::split_inclusive('\n')`: chunks of the input, each ending with
the byte 10 except possibly the last; the empty input yields no chunks. -/
def splitInclusive : List Nat → List (List Nat)
  | [] => []
  | b :: rest =>
    if b = 10 then [b] :: splitInclusive rest
    else
      match splitInclusive rest with
      | [] => [[b]]
      | c :: cs => (b :: c) :: cs

/-- The per-chunk map of Rust `str::lines`: strip one trailing newline, and
if a newline was stripped, also strip one trailing carriage return. -/
def rustLineOf (chunk : List Nat) : List Nat :=
  if chunk.getLast? = some 10 then
    if chunk.dropLast.getLast? = some 13 then chunk.dropLast.dropLast
    else chunk.dropLast
  else chunk

/-- Rust `str::lines`. -/
def rustLines (text : List Nat) : List (List Nat) :=
  (splitInclusive text).map rustLineOf

/-- `Piece::try_from(piece_text.to_string()).ok()` used for one cell:
errors collapse to an empty cell; a panic (`none`) propagates. -/
def cellFrom (seg : List Nat) : Option (Option Piece) :=
  match pieceTryFrom seg with
  | none => none
  | some r => some r.toOption

/-- Separator handling of `BoardState::try_from` at cell `y` of a line (only
for `y ≠ 3`): the slice `&line[5*y+4..5*y+5]` panics (`none`) when position
`5*y+5` is not a character boundary, and the separator must equal `" "`
(byte 32), else `InvalidPieceError` is returned. Position `5*y+4` was already
required to be a boundary by the cell slice. -/
def spacerCheck (line : List Nat) (y : Nat) : Option (Except QuartoError Unit) :=
  if y = 3 then some (.ok ())
  else if contAt line (5 * y + 5) then none
  else if line.get? (5 * y + 4) = some 32 then some (.ok ())
  else some (.error .InvalidPieceError)

/-- Inner loop of `BoardState::try_from` over the cells `y ∈ ys` of one line,
threading the set of pieces seen so far (`piece_count`, kept as a list):
slice `&line[5*y..5*y+4]` (panic when an end point is not a boundary), parse
it with `.ok()`, fail with `InvalidPieceError` when the parsed piece was
already seen, then check the separator.  Returns the cells in order together
with the updated seen set. -/
def decodeCellsAux (line : List Nat) :
    List Nat → List Piece → Option (Except QuartoError (List (Option Piece) × List Piece))
  | [], seen => some (.ok ([], seen))
  | y :: ys, seen =>
    if contAt line (5 * y) || contAt line (5 * y + 4) then none
    else
      match cellFrom ((line.drop (5 * y)).take 4) with
      | none => none
      | some cell =>
        let dup : Bool := match cell with
          | some p => decide (p ∈ seen)
          | none => false
        if dup then some (.error .InvalidPieceError)
        else
          let seen' : List Piece := match cell with
            | some p => p :: seen
            | none => seen
          match spacerCheck line y with
          | none => none
          | some (.error e) => some (.error e)
          | some (.ok _) =>
            match decodeCellsAux line ys seen' with
            | none => none
            | some (.error e) => some (.error e)
            | some (.ok (cells, seenOut)) => some (.ok (cell :: cells, seenOut))

/-- Outer loop of `BoardState::try_from` over the lines: each line must be
exactly `3*(4+1)+4 = 19` bytes long, then its cells are decoded. -/
def decodeLinesAux :
    List (List Nat) → List Piece → Option (Except QuartoError (List (List (Option Piece))))
  | [], _ => some (.ok [])
  | l :: ls, seen =>
    if l.length ≠ 19 then some (.error .InvalidPieceError)
    else
      match decodeCellsAux l [0, 1, 2, 3] seen with
      | none => none
      | some (.error e) => some (.error e)
      | some (.ok (cells, seen')) =>
        match decodeLinesAux ls seen' with
        | none => none
        | some (.error e) => some (.error e)
        | some (.ok rows) => some (.ok (cells :: rows))

/-- View a row-major list of rows as a board function (`bs[x][y]`). -/
def toBoard (rows : List (List (Option Piece))) : Board :=
  fun x y => (rows.getD x.val []).getD y.val none

/-- `impl TryFrom<&String> for BoardState`: split into lines, require exactly
4 of them, then decode each line; `none` models a panic. -/
def boardTryFrom (text : List Nat) : Option (Except QuartoError Board) :=
  let ls := rustLines text
  if ls.length ≠ 4 then some (.error .InvalidPieceError)
  else
    match decodeLinesAux ls [] with
    | none => none
    | some (.error e) => some (.error e)
    | some (.ok rows) => some (.ok (toBoard rows))

/-- Encoding of one cell in `impl From<BoardState> for String`:
`c.map_or("    ".to_string(), Into::into)`. -/
def cellBytes : Option Piece → List Nat
  | none => [32, 32, 32, 32]
  | some p => pieceBytes p

/-- One row of the encoding: the 4 cell codes joined by a single space. -/
def encodeRow (r : List (Option Piece)) : List Nat :=
  List.intercalate [32] (r.map cellBytes)

/-- The rows of a board in row-major order. -/
def boardRows (b : Board) : List (List (Option Piece)) :=
  [[b 0 0, b 0 1, b 0 2, b 0 3],
   [b 1 0, b 1 1, b 1 2, b 1 3],
   [b 2 0, b 2 1, b 2 2, b 2 3],
   [b 3 0, b 3 1, b 3 2, b 3 3]]

/-- All 16 cells of a board in row-major order. -/
def boardCells (b : Board) : List (Option Piece) :=
  (boardRows b).flatten

/-- `impl From<BoardState> for String`: the 4 encoded rows joined by a single
newline, with no trailing newline. -/
def encodeBoard (b : Board) : List Nat :=
  List.intercalate [10] ((boardRows b).map encodeRow)

/-- `struct Quarto { board_state, free_pieces, next_piece }`. -/
structure Game where
  board_state : Board
  free_pieces : List Piece
  next_piece : Option Piece
deriving DecidableEq

/-- `fn all_pieces()`: the 16-piece universe, built by the nested loops over
color, shape, top and height in iteration order. -/
def allPieces : List Piece :=
  [Color.Brown, Color.White].flatMap fun c =>
    [Shape.Circle, Shape.Square].flatMap fun s =>
      [Top.Flat, Top.Hole].flatMap fun t =>
        [Height.Short, Height.Tall].map fun h =>
          { color := c, shape := s, top := t, height := h }

/-- `Quarto::free_pieces(bs)`: start from all pieces and, for each occupied
cell in row-major order, retain only the pieces different from its piece. -/
def freePiecesOf (bs : Board) : List Piece :=
  (boardCells bs).foldl
    (fun pieces cell =>
      match cell with
      | some p => pieces.filter fun x => decide (x ≠ p)
      | none => pieces)
    allPieces

/-- `Quarto::new()`: empty board, the full pool of 16, no pending piece. -/
def gameNew : Game :=
  { board_state := emptyBoard, free_pieces := allPieces, next_piece := none }

/-- `impl TryFrom<&String> for Quarto`: decode the board text, recompute the
free pool as the complement of its pieces, keep `next_piece = None`. -/
def gameTryFrom (text : List Nat) : Option (Except QuartoError Game) :=
  match boardTryFrom text with
  | none => none
  | some (.error e) => some (.error e)
  | some (.ok bs) =>
    some (.ok { board_state := bs, free_pieces := freePiecesOf bs, next_piece := none })

/-- `Quarto::pick_piece`: when the piece is in the free pool, remove it and
make it the pending piece, returning `true`; otherwise return `false` and
change nothing.  The Rust code does not consult `next_piece`. -/
def pickPiece (g : Game) (p : Piece) : Bool × Game :=
  if p ∈ g.free_pieces then
    (true,
     { g with
        free_pieces := g.free_pieces.filter fun pc => decide (pc ≠ p),
        next_piece := some p })
  else (false, g)

/-- Checked read of `self.board_state.0[x][y]` after the bound test. -/
def bget (b : Board) (x y : Nat) : Option Piece :=
  if hx : x < 4 then
    if hy : y < 4 then b ⟨x, hx⟩ ⟨y, hy⟩ else none
  else none

/-- Write `self.board_state.0[x][y] = Some(p)`. -/
def bset (b : Board) (x y : Nat) (p : Piece) : Board :=
  fun i j => if i.val = x ∧ j.val = y then some p else b i j

/-- `Quarto::move_piece`: out-of-board coordinates, an occupied target cell,
or a missing pending piece give `false` with no mutation; otherwise the code
asserts the pending piece is not in the free pool (`none` models the panic
of a failing `assert!`), writes it into the cell and clears it. -/
def movePiece (g : Game) (x y : Nat) : Option (Bool × Game) :=
  if 4 ≤ x ∨ 4 ≤ y then some (false, g)
  else
    match bget g.board_state x y with
    | some _ => some (false, g)
    | none =>
      match g.next_piece with
      | none => some (false, g)
      | some p =>
        if p ∈ g.free_pieces then none
        else
          some (true,
            { g with
                board_state := bset g.board_state x y p,
                next_piece := none })

/-- The pending piece, when present, is absent from the free pool. -/
def pendingNotFree (g : Game) : Bool :=
  match g.next_piece with
  | none => true
  | some p => decide (p ∉ g.free_pieces)

/-- Game states reachable from a fresh game or from a successful decoding by
`pick_piece` and `move_piece` calls. -/
inductive Reachable : Game → Prop
  | new : Reachable gameNew
  | decode (t : List Nat) (g : Game) : gameTryFrom t = some (.ok g) → Reachable g
  | pick (g : Game) (p : Piece) : Reachable g → Reachable (pickPiece g p).2
  | place (g : Game) (x y : Nat) (r : Bool) (g' : Game) :
      Reachable g → movePiece g x y = some (r, g') → Reachable g'

/-- `Quarto::count_elements` for a list of coordinates and one attribute
projection.  The Rust function returns the found-a-none flag together with a
`HashMap<Option<S>, usize>` of multiplicities; the map is represented by the
underlying key list `pickedProperty`, whose multiplicity at `v` is
`pickedProperty.count v`. -/
def countElements {S : Type} [DecidableEq S] (b : Board) (coords : List (Fin 4 × Fin 4))
    (prop : Piece → S) : Bool × List (Option S) :=
  let picked := coords.map fun c => b c.1 c.2
  let pickedProperty := picked.map (Option.map prop)
  (pickedProperty.any Option.isNone, pickedProperty)

/-- `Quarto::check_quarto`: no cell of the line was empty and the value set
of the multiplicity map contains 4, i.e. some key has multiplicity 4. -/
def checkQuarto {S : Type} [DecidableEq S] (ls : Bool × List (Option S)) : Bool :=
  !ls.1 && ls.2.any fun v => ls.2.count v == 4

/-- `Quarto::parse_quarto`: pair every line of coordinates with the per-line
counts for the four attributes. -/
def parseQuarto (b : Board) (coordsVec : List (List (Fin 4 × Fin 4))) :
    List ((List (Fin 4 × Fin 4)) ×
      ((Bool × List (Option Color)) × (Bool × List (Option Height)) ×
       (Bool × List (Option Shape)) × (Bool × List (Option Top)))) :=
  coordsVec.map fun coords =>
    (coords,
     (countElements b coords Piece.color,
      countElements b coords Piece.height,
      countElements b coords Piece.shape,
      countElements b coords Piece.top))

/-- `Quarto::summarize`: keep the lines where some attribute checks. -/
def summarize
    (vv : List ((List (Fin 4 × Fin 4)) ×
      ((Bool × List (Option Color)) × (Bool × List (Option Height)) ×
       (Bool × List (Option Shape)) × (Bool × List (Option Top))))) :
    List (List (Fin 4 × Fin 4)) :=
  (vv.filter fun x =>
      checkQuarto x.2.1 || checkQuarto x.2.2.1 ||
      checkQuarto x.2.2.2.1 || checkQuarto x.2.2.2.2).map
    fun x => x.1

/-- The 10 coordinate lines hard-coded in `Quarto::is_quarto`: 4 rows,
4 columns, the 2 main diagonals. -/
def quartoCoordLines : List (List (Fin 4 × Fin 4)) :=
  [[(0, 0), (0, 1), (0, 2), (0, 3)],
   [(1, 0), (1, 1), (1, 2), (1, 3)],
   [(2, 0), (2, 1), (2, 2), (2, 3)],
   [(3, 0), (3, 1), (3, 2), (3, 3)],
   [(0, 0), (1, 0), (2, 0), (3, 0)],
   [(0, 1), (1, 1), (2, 1), (3, 1)],
   [(0, 2), (1, 2), (2, 2), (3, 2)],
   [(0, 3), (1, 3), (2, 3), (3, 3)],
   [(0, 0), (1, 1), (2, 2), (3, 3)],
   [(3, 0), (2, 1), (1, 2), (0, 3)]]

/-- `Quarto::is_quarto`: some line survives `summarize`. -/
def isQuarto (b : Board) : Bool :=
  decide (0 < (summarize (parseQuarto b quartoCoordLines)).length)

/-! Concrete inputs used by the theorems below. -/

/-- The empty cell segment, four spaces. -/
def sp4 : List Nat := [32, 32, 32, 32]

/-- A line of four empty cells, 19 bytes. -/
def blankLine : List Nat := sp4 ++ 32 :: sp4 ++ 32 :: sp4 ++ 32 :: sp4

/-- The board text of four blank lines. -/
def blankText : List Nat := blankLine ++ 10 :: blankLine ++ 10 :: blankLine ++ 10 :: blankLine

/-- The piece with code `BSCF`. -/
def bscf : Piece := ⟨.Brown, .Short, .Circle, .Flat⟩

/-- The piece with code `BSCH`. -/
def bsch : Piece := ⟨.Brown, .Short, .Circle, .Hole⟩

/-- A 19-byte line whose first segment is `XXXX` (byte 88 is `X`) and whose
other segments are empty. -/
def xxxxLine : List Nat := [88, 88, 88, 88] ++ 32 :: sp4 ++ 32 :: sp4 ++ 32 :: sp4

/-- A board text whose first cell segment is `XXXX`: neither four spaces nor
a valid piece code. -/
def xxxxText : List Nat := xxxxLine ++ 10 :: blankLine ++ 10 :: blankLine ++ 10 :: blankLine

/-- A 19-byte line containing the piece code `BSCF` (bytes 66 83 67 70) in
its first two cells. -/
def dupLine : List Nat := [66, 83, 67, 70] ++ 32 :: [66, 83, 67, 70] ++ 32 :: sp4 ++ 32 :: sp4

/-- A board text in which the piece code `BSCF` appears in two cells. -/
def dupText : List Nat := dupLine ++ 10 :: blankLine ++ 10 :: blankLine ++ 10 :: blankLine

/-- The game after picking `BSCF` from a fresh game. -/
def game1 : Game := (pickPiece gameNew bscf).2

/-- The game after then also picking `BSCH`, while `BSCF` is still pending. -/
def game2 : Game := (pickPiece game1 bsch).2

/-- A 19-byte line starting with the two-byte UTF-8 character `é`
(bytes 195 169) followed by `ab ` and three empty segments. -/
def eAcuteLine : List Nat :=
  [195, 169, 97, 98, 32] ++ sp4 ++ 32 :: sp4 ++ 32 :: sp4

/-- A 4-line board text whose first line contains a non-ASCII character. -/
def eAcuteText : List Nat :=
  eAcuteLine ++ 10 :: blankLine ++ 10 :: blankLine ++ 10 :: blankLine

/-- The empty board written as a row-major cell grid. -/
def emptyGrid : Board :=
  toBoard [[none, none, none, none], [none, none, none, none],
           [none, none, none, none], [none, none, none, none]]

theorem emptyGrid_eq : emptyGrid = emptyBoard := by decide

/-! Theorems for the claims. -/

/-- Claim C1 (code bug shown at the failing input): starting from a fresh
game, `pick_piece BSCF` followed by `pick_piece BSCH` both succeed, and
afterwards `BSCF` is on no board cell, not in the free pool, and not the
pending piece — only 15 of the 16 pieces remain tracked, so the three
regions do not partition the 16-piece universe. -/
theorem pick_overwrite_breaks_partition :
    (pickPiece gameNew bscf).1 = true ∧
    (pickPiece game1 bsch).1 = true ∧
    game2.next_piece = some bsch ∧
    bscf ∉ game2.free_pieces ∧
    (∀ i j : Fin 4, game2.board_state i j ≠ some bscf) ∧
    game2.free_pieces.length = 14 := by
  decide

/-- Claim C2 (code bug shown at the failing input): in `game1` the piece
`BSCF` is pending, yet `pick_piece BSCH` succeeds (returns `true`) and
replaces the pending piece instead of failing and leaving the state
unchanged. -/
theorem pick_with_pending_succeeds :
    game1.next_piece = some bscf ∧
    (pickPiece game1 bsch).1 = true ∧
    (pickPiece game1 bsch).2.next_piece = some bsch := by
  decide

/-- Claim C8 (code bug shown at the failing input): decoding the 4-byte
string `éab` (bytes 195 169 97 98) panics in `Piece::try_from` because byte
index 1 is not a character boundary, and a board text containing that
character makes `BoardState::try_from` panic as well (`none` models the
panic), instead of returning an error value. -/
theorem pieceTryFrom_panics_on_nonascii :
    pieceTryFrom [195, 169, 97, 98] = none ∧
    boardTryFrom eAcuteText = none := by
  decide

/-- Claim C4 counterexample: the board text whose first segment is `XXXX`
is not rejected; it decodes successfully, with the `XXXX` cell read as
empty. -/
theorem decode_accepts_xxxx_segment :
    boardTryFrom xxxxText = some (.ok emptyBoard) := by
  have h : boardTryFrom xxxxText = some (.ok emptyGrid) := by decide
  rw [h, emptyGrid_eq]

/-- Claim C10 counterexample: the blank board text with one trailing newline
is accepted, but appending one more newline to this accepted text makes
decoding fail instead of preserving acceptance. -/
theorem append_newline_to_accepted_fails :
    boardTryFrom (blankText ++ [10]) = some (.ok emptyBoard) ∧
    boardTryFrom ((blankText ++ [10]) ++ [10]) = some (.error .InvalidPieceError) := by
  have h : boardTryFrom (blankText ++ [10]) = some (.ok emptyGrid) := by decide
  refine ⟨?_, by decide⟩
  rw [h, emptyGrid_eq]

/-- Error kinds named by the specification for `place`. -/
inductive PlaceError | OutOfRange | NoPendingPiece | CellOccupied
deriving DecidableEq

/-- Modelled from the spec's words for `place(x, y)` (section 4.3), for
comparison with `movePiece`: `OutOfRange` if a coordinate is outside
`[0,4)`, `NoPendingPiece` if no piece is pending, `CellOccupied` if the
target cell holds a piece; on success the pending piece is written into the
cell and cleared, and nothing else changes. -/
def placeSpecification (g : Game) (x y : Nat) : Except PlaceError Game :=
  if ¬(x < 4 ∧ y < 4) then .error .OutOfRange
  else
    match g.next_piece with
    | none => .error .NoPendingPiece
    | some p =>
      if (bget g.board_state x y).isSome then .error .CellOccupied
      else
        .ok { g with
                board_state := bset g.board_state x y p,
                next_piece := none }

/-- Claim C6: on any game state whose pending piece (if any) is outside the
free pool (every spec-valid state, by the partition invariant),
`move_piece x y` returns `false` and leaves the state untouched exactly when
the spec-level `place` fails (out of range, no pending piece, or occupied
cell), and returns `true` with exactly the spec-level success state —
pending piece written to `(x, y)`, pending cleared, nothing else changed —
otherwise. -/
theorem movePiece_matches_place_specification (g : Game) (x y : Nat)
    (hfree : pendingNotFree g = true) :
    movePiece g x y = some (match placeSpecification g x y with
      | .error _ => (false, g)
      | .ok g' => (true, g')) := by
  unfold movePiece placeSpecification
  by_cases hr : 4 ≤ x ∨ 4 ≤ y
  · have hr' : ¬(x < 4 ∧ y < 4) := by omega
    simp [hr, hr']
  · have hr' : x < 4 ∧ y < 4 := by omega
    simp only [hr, if_false, hr', not_true_eq_false, if_neg, ite_false]
    cases hc : bget g.board_state x y with
    | some q =>
      cases hn : g.next_piece with
      | none => simp
      | some p => simp [hc]
    | none =>
      cases hn : g.next_piece with
      | none => simp
      | some p =>
        have hp : p ∉ g.free_pieces := by
          unfold pendingNotFree at hfree
          rw [hn] at hfree
          simpa using hfree
        simp [hc, hp]

/-- Witness for C6: in the state reached by picking `BSCF` from a fresh
game the pending piece is outside the free pool, and placing at `(0, 0)`
follows the specification's success case. -/
theorem movePiece_matches_place_specification_witness :
    pendingNotFree game1 = true ∧
    movePiece game1 0 0 = some (match placeSpecification game1 0 0 with
      | .error _ => (false, game1)
      | .ok g' => (true, g')) :=
  ⟨by decide, movePiece_matches_place_specification game1 0 0 (by decide)⟩

theorem pendingNotFree_reachable (g : Game) (h : Reachable g) :
    pendingNotFree g = true := by
  induction h with
  | new => rfl
  | decode t g hg =>
    unfold gameTryFrom at hg
    split at hg
    · exact Option.noConfusion hg
    · simp at hg
    · simp only [Option.some.injEq, Except.ok.injEq] at hg
      rw [← hg]
      rfl
  | pick g p hr ih =>
    unfold pickPiece
    by_cases hm : p ∈ g.free_pieces
    · simp only [hm, if_true]
      unfold pendingNotFree
      simp [List.mem_filter]
    · simpa [hm] using ih
  | place g x y r g' hr hmv ih =>
    unfold movePiece at hmv
    split at hmv
    · simp only [Option.some.injEq, Prod.mk.injEq] at hmv
      rw [← hmv.2]
      exact ih
    · split at hmv
      · simp only [Option.some.injEq, Prod.mk.injEq] at hmv
        rw [← hmv.2]
        exact ih
      · split at hmv
        · simp only [Option.some.injEq, Prod.mk.injEq] at hmv
          rw [← hmv.2]
          exact ih
        · split at hmv
          · exact Option.noConfusion hmv
          · simp only [Option.some.injEq, Prod.mk.injEq] at hmv
            rw [← hmv.2]
            rfl

theorem movePiece_isSome (g : Game) (x y : Nat) (h : pendingNotFree g = true) :
    movePiece g x y ≠ none := by
  unfold movePiece
  split
  · simp
  · split
    · simp
    · split
      · simp
      · next p hp =>
        split
        · next hmem =>
          unfold pendingNotFree at h
          rw [hp] at h
          simp at h
          exact absurd hmem h
        · simp

/-- Claim C9: in every game state reachable from a fresh game or from a
successful board-text decoding by `pick_piece` and `move_piece`, the
pending piece (when present) is not in the free pool, and consequently the
`assert!(!self.free_pieces.contains(&p))` inside `move_piece` can never
fail (the embedded `move_piece` never returns the panic value `none`). -/
theorem reachable_pending_not_free (g : Game) (x y : Nat) (h : Reachable g) :
    pendingNotFree g = true ∧ movePiece g x y ≠ none :=
  ⟨pendingNotFree_reachable g h,
   movePiece_isSome g x y (pendingNotFree_reachable g h)⟩

/-- Witness for C9 at the fresh game, which is reachable by construction. -/
theorem reachable_pending_not_free_witness :
    pendingNotFree gameNew = true ∧ movePiece gameNew 0 0 ≠ none :=
  reachable_pending_not_free gameNew 0 0 Reachable.new

theorem count4_eq_iff {S : Type} [DecidableEq S] (v a b c d : Option S) :
    [a, b, c, d].count v = 4 ↔ v = a ∧ v = b ∧ v = c ∧ v = d := by
  rw [show (4 : Nat) = [a, b, c, d].length from rfl, List.count_eq_length]
  simp

theorem any_count4_iff {S : Type} [DecidableEq S] (a b c d : Option S) :
    ([a, b, c, d].any fun v => [a, b, c, d].count v == 4) = true ↔
      a = b ∧ b = c ∧ c = d := by
  simp only [List.any_eq_true, beq_iff_eq, count4_eq_iff, List.mem_cons,
    List.mem_singleton, List.not_mem_nil, or_false]
  constructor
  · rintro ⟨v, -, h1, h2, h3, h4⟩
    subst h1
    exact ⟨h2, h2 ▸ h3, h3 ▸ h4⟩
  · rintro ⟨h1, h2, h3⟩
    exact ⟨a, Or.inl rfl, rfl, h1, h1.trans h2, (h1.trans h2).trans h3⟩

theorem checkQuarto_split {S : Type} [DecidableEq S] (fl : Bool) (l : List (Option S)) :
    checkQuarto (fl, l) = true ↔
      fl = false ∧ (l.any fun v => l.count v == 4) = true := by
  simp [checkQuarto, Bool.and_eq_true, Bool.not_eq_true']

theorem check_countElements_iff {S : Type} [DecidableEq S] (b : Board) (prop : Piece → S)
    (c0 c1 c2 c3 : Fin 4 × Fin 4) :
    checkQuarto (countElements b [c0, c1, c2, c3] prop) = true ↔
      ∃ p0 p1 p2 p3 : Piece,
        b c0.1 c0.2 = some p0 ∧ b c1.1 c1.2 = some p1 ∧
        b c2.1 c2.2 = some p2 ∧ b c3.1 c3.2 = some p3 ∧
        prop p0 = prop p1 ∧ prop p1 = prop p2 ∧ prop p2 = prop p3 := by
  unfold countElements
  simp only [List.map_cons, List.map_nil]
  rw [checkQuarto_split,
    any_count4_iff (Option.map prop (b c0.1 c0.2)) (Option.map prop (b c1.1 c1.2))
      (Option.map prop (b c2.1 c2.2)) (Option.map prop (b c3.1 c3.2))]
  cases h0 : b c0.1 c0.2 <;> cases h1 : b c1.1 c1.2 <;>
    cases h2 : b c2.1 c2.2 <;> cases h3 : b c3.1 c3.2 <;>
    simp_all

/-- A line qualifies in the sense of the specification: all four of its
cells are occupied, and the four pieces share at least one attribute
value. -/
def lineWins (b : Board) (l : List (Fin 4 × Fin 4)) : Prop :=
  ∃ p0 p1 p2 p3 : Piece,
    (l.map fun c => b c.1 c.2) = [some p0, some p1, some p2, some p3] ∧
    (p0.color = p1.color ∧ p1.color = p2.color ∧ p2.color = p3.color ∨
     p0.height = p1.height ∧ p1.height = p2.height ∧ p2.height = p3.height ∨
     p0.shape = p1.shape ∧ p1.shape = p2.shape ∧ p2.shape = p3.shape ∨
     p0.top = p1.top ∧ p1.top = p2.top ∧ p2.top = p3.top)

theorem line_check_iff (b : Board) (c0 c1 c2 c3 : Fin 4 × Fin 4) :
    (checkQuarto (countElements b [c0, c1, c2, c3] Piece.color) ||
     checkQuarto (countElements b [c0, c1, c2, c3] Piece.height) ||
     checkQuarto (countElements b [c0, c1, c2, c3] Piece.shape) ||
     checkQuarto (countElements b [c0, c1, c2, c3] Piece.top)) = true ↔
      lineWins b [c0, c1, c2, c3] := by
  rw [Bool.or_eq_true, Bool.or_eq_true, Bool.or_eq_true,
    check_countElements_iff, check_countElements_iff,
    check_countElements_iff, check_countElements_iff]
  unfold lineWins
  simp only [List.map_cons, List.map_nil, List.cons.injEq, and_true]
  constructor
  · rintro (((⟨p0, p1, p2, p3, h0, h1, h2, h3, ha⟩ |
        ⟨p0, p1, p2, p3, h0, h1, h2, h3, ha⟩) |
        ⟨p0, p1, p2, p3, h0, h1, h2, h3, ha⟩) |
        ⟨p0, p1, p2, p3, h0, h1, h2, h3, ha⟩)
    · exact ⟨p0, p1, p2, p3, ⟨h0, h1, h2, h3⟩, Or.inl ha⟩
    · exact ⟨p0, p1, p2, p3, ⟨h0, h1, h2, h3⟩, Or.inr (Or.inl ha)⟩
    · exact ⟨p0, p1, p2, p3, ⟨h0, h1, h2, h3⟩, Or.inr (Or.inr (Or.inl ha))⟩
    · exact ⟨p0, p1, p2, p3, ⟨h0, h1, h2, h3⟩, Or.inr (Or.inr (Or.inr ha))⟩
  · rintro ⟨p0, p1, p2, p3, ⟨h0, h1, h2, h3⟩, ha | ha | ha | ha⟩
    · exact Or.inl (Or.inl (Or.inl ⟨p0, p1, p2, p3, h0, h1, h2, h3, ha⟩))
    · exact Or.inl (Or.inl (Or.inr ⟨p0, p1, p2, p3, h0, h1, h2, h3, ha⟩))
    · exact Or.inl (Or.inr ⟨p0, p1, p2, p3, h0, h1, h2, h3, ha⟩)
    · exact Or.inr ⟨p0, p1, p2, p3, h0, h1, h2, h3, ha⟩

/-- Claim C3: `is_quarto` returns true exactly when one of the 10 canonical
lines (4 rows, 4 columns, 2 main diagonals) has all four cells occupied by
pieces sharing at least one attribute value; a line with an empty cell
never qualifies (this is built into `lineWins`), and the all-empty board
yields false. -/
theorem isQuarto_iff_line_qualifies :
    (∀ b : Board, isQuarto b = true ↔ ∃ l ∈ quartoCoordLines, lineWins b l) ∧
    isQuarto emptyBoard = false := by
  constructor
  · intro b
    have hline : ∀ l ∈ quartoCoordLines,
        ((checkQuarto (countElements b l Piece.color) ||
          checkQuarto (countElements b l Piece.height) ||
          checkQuarto (countElements b l Piece.shape) ||
          checkQuarto (countElements b l Piece.top)) = true ↔ lineWins b l) := by
      intro l hl
      fin_cases hl <;> exact line_check_iff b _ _ _ _
    unfold isQuarto summarize parseQuarto
    rw [decide_eq_true_iff, List.length_map, List.length_pos, ne_eq,
      List.filter_eq_nil_iff]
    push_neg
    constructor
    · rintro ⟨x, hx, hpred⟩
      simp only [List.mem_map] at hx
      obtain ⟨l, hl, rfl⟩ := hx
      exact ⟨l, hl, (hline l hl).mp (by simpa using hpred)⟩
    · rintro ⟨l, hl, hw⟩
      refine ⟨(l, (countElements b l Piece.color, countElements b l Piece.height,
        countElements b l Piece.shape, countElements b l Piece.top)),
        List.mem_map.mpr ⟨l, hl, rfl⟩, ?_⟩
      simpa using (hline l hl).mpr hw
  · decide

theorem spacerCheck_ok_get {l : List Nat} {y : Nat} (hy : y ≠ 3)
    (h : spacerCheck l y = some (.ok ())) : l.get? (5 * y + 4) = some 32 := by
  unfold spacerCheck at h
  rw [if_neg hy] at h
  split at h
  · exact Option.noConfusion h
  · split at h
    · assumption
    · simp at h

theorem decodeCellsAux_ok_cons {l : List Nat} {y : Nat} {ys : List Nat}
    {seen seen' : List Piece} {cells : List (Option Piece)}
    (h : decodeCellsAux l (y :: ys) seen = some (.ok (cells, seen'))) :
    ∃ cell cells1,
      cells = cell :: cells1 ∧
      cellFrom ((l.drop (5 * y)).take 4) = some cell ∧
      (∀ p, cell = some p → p ∉ seen) ∧
      spacerCheck l y = some (.ok ()) ∧
      decodeCellsAux l ys (match cell with | some p => p :: seen | none => seen) =
        some (.ok (cells1, seen')) := by
  unfold decodeCellsAux at h
  split at h
  · exact Option.noConfusion h
  · split at h
    · -- the cell parse panicked
      exact Option.noConfusion h
    · rename_i cell heq
      cases cell with
      | some p =>
        simp only [] at h
        split at h
        · simp at h
        · rename_i hdup
          split at h
          · exact Option.noConfusion h
          · simp at h
          · rename_i u hsp
            split at h
            · exact Option.noConfusion h
            · simp at h
            · rename_i cells1 seenOut hrec
              simp only [Option.some.injEq, Except.ok.injEq, Prod.mk.injEq] at h
              refine ⟨some p, cells1, h.1.symm, heq, ?_, hsp, ?_⟩
              · intro q hq
                injection hq with e
                rw [← e]
                simpa using hdup
              · rw [h.2] at hrec
                exact hrec
      | none =>
        simp only [] at h
        split at h
        · simp_all
        · split at h
          · exact Option.noConfusion h
          · simp at h
          · rename_i u hsp
            split at h
            · exact Option.noConfusion h
            · simp at h
            · rename_i cells1 seenOut hrec
              simp only [Option.some.injEq, Except.ok.injEq, Prod.mk.injEq] at h
              refine ⟨none, cells1, h.1.symm, heq, ?_, hsp, ?_⟩
              · intro q hq
                exact Option.noConfusion hq
              · rw [h.2] at hrec
                exact hrec

theorem decodeLinesAux_ok_cons {l : List Nat} {ls : List (List Nat)} {seen : List Piece}
    {rows : List (List (Option Piece))}
    (h : decodeLinesAux (l :: ls) seen = some (.ok rows)) :
    ∃ cells seen' rows1,
      rows = cells :: rows1 ∧ l.length = 19 ∧
      decodeCellsAux l [0, 1, 2, 3] seen = some (.ok (cells, seen')) ∧
      decodeLinesAux ls seen' = some (.ok rows1) := by
  unfold decodeLinesAux at h
  split at h
  · simp at h
  · rename_i hlen
    split at h
    · exact Option.noConfusion h
    · simp at h
    · rename_i cells seen' hc
      split at h
      · exact Option.noConfusion h
      · simp at h
      · rename_i rows1 hrest
        simp only [Option.some.injEq, Except.ok.injEq] at h
        exact ⟨cells, seen', rows1, h.symm, not_not.mp hlen, hc, hrest⟩

theorem decodeCellsAux_line_facts {l : List Nat} {seen seen' : List Piece}
    {cells : List (Option Piece)}
    (h : decodeCellsAux l [0, 1, 2, 3] seen = some (.ok (cells, seen'))) :
    l.get? 4 = some 32 ∧ l.get? 9 = some 32 ∧ l.get? 14 = some 32 := by
  obtain ⟨c0, r0, -, -, -, hsp0, h0⟩ := decodeCellsAux_ok_cons h
  obtain ⟨c1, r1, -, -, -, hsp1, h1⟩ := decodeCellsAux_ok_cons h0
  obtain ⟨c2, r2, -, -, -, hsp2, h2⟩ := decodeCellsAux_ok_cons h1
  refine ⟨?_, ?_, ?_⟩
  · simpa using spacerCheck_ok_get (by omega) hsp0
  · simpa using spacerCheck_ok_get (by omega) hsp1
  · simpa using spacerCheck_ok_get (by omega) hsp2

theorem decodeLinesAux_line_facts {ls : List (List Nat)} {seen : List Piece}
    {rows : List (List (Option Piece))}
    (h : decodeLinesAux ls seen = some (.ok rows)) :
    ∀ l ∈ ls, l.length = 19 ∧
      l.get? 4 = some 32 ∧ l.get? 9 = some 32 ∧ l.get? 14 = some 32 := by
  induction ls generalizing seen rows with
  | nil =>
    intro l hl
    exact absurd hl (List.not_mem_nil l)
  | cons l0 ls ih =>
    obtain ⟨cells, seen', rows1, -, hlen, hc, hrest⟩ := decodeLinesAux_ok_cons h
    intro l hl
    rcases List.mem_cons.mp hl with rfl | hl
    · exact ⟨hlen, decodeCellsAux_line_facts hc⟩
    · exact ih hrest l hl

/-- The structural conditions actually enforced by `BoardState::try_from`:
exactly 4 lines, each 19 bytes long, with a single space (byte 32) at the
three separator positions. -/
def linesWellFormed (t : List Nat) : Prop :=
  (rustLines t).length = 4 ∧
  ∀ l ∈ rustLines t, l.length = 19 ∧
    l.get? 4 = some 32 ∧ l.get? 9 = some 32 ∧ l.get? 14 = some 32

/-- Claim C4 as amended: decoding fails unless the text has exactly 4
lines, each exactly 19 bytes with a single space at each separator
position; however a 4-byte cell segment that is neither four spaces nor a
valid piece code (such as `XXXX`) is NOT rejected — it decodes as an empty
cell, as the concrete text `xxxxText` shows. -/
theorem decode_ok_structure :
    (∀ (t : List Nat) (b : Board), boardTryFrom t = some (.ok b) → linesWellFormed t) ∧
    boardTryFrom xxxxText = some (.ok emptyBoard) := by
  constructor
  · intro t b h
    unfold boardTryFrom at h
    simp only [] at h
    split at h
    · simp at h
    · rename_i hlen4
      refine ⟨not_not.mp hlen4, ?_⟩
      split at h
      · exact Option.noConfusion h
      · simp at h
      · rename_i rows hrows
        exact decodeLinesAux_line_facts hrows
  · have hx : boardTryFrom xxxxText = some (.ok emptyGrid) := by decide
    rw [hx, emptyGrid_eq]

/-- Witness for the amended C4 at the concrete `XXXX` text. -/
theorem decode_ok_structure_witness :
    boardTryFrom xxxxText = some (.ok emptyBoard) ∧ linesWellFormed xxxxText :=
  ⟨decode_ok_structure.2,
   decode_ok_structure.1 xxxxText emptyBoard decode_ok_structure.2⟩

theorem decodeCellsAux_count {l : List Nat} {ys : List Nat} {seen seen' : List Piece}
    {cells : List (Option Piece)}
    (h : decodeCellsAux l ys seen = some (.ok (cells, seen'))) (q : Piece) :
    seen'.count q = cells.count (some q) + seen.count q := by
  induction ys generalizing seen cells with
  | nil =>
    unfold decodeCellsAux at h
    simp only [Option.some.injEq, Except.ok.injEq, Prod.mk.injEq] at h
    rw [← h.1, ← h.2]
    simp
  | cons y ys ih =>
    obtain ⟨cell, cells1, rfl, -, hnotin, -, hrec⟩ := decodeCellsAux_ok_cons h
    cases cell with
    | some p =>
      have hc := ih hrec
      by_cases hqp : q = p <;> simp_all [List.count_cons]
      omega
    | none =>
      have hc := ih hrec
      simpa [List.count_cons] using hc

theorem decodeCellsAux_nodup {l : List Nat} {ys : List Nat} {seen seen' : List Piece}
    {cells : List (Option Piece)}
    (h : decodeCellsAux l ys seen = some (.ok (cells, seen')))
    (hn : seen.Nodup) : seen'.Nodup := by
  induction ys generalizing seen cells with
  | nil =>
    unfold decodeCellsAux at h
    simp only [Option.some.injEq, Except.ok.injEq, Prod.mk.injEq] at h
    rw [← h.2]
    exact hn
  | cons y ys ih =>
    obtain ⟨cell, cells1, rfl, -, hnotin, -, hrec⟩ := decodeCellsAux_ok_cons h
    cases cell with
    | some p => exact ih hrec (List.nodup_cons.mpr ⟨hnotin p rfl, hn⟩)
    | none => exact ih hrec hn

theorem decodeCellsAux_length {l : List Nat} {ys : List Nat} {seen seen' : List Piece}
    {cells : List (Option Piece)}
    (h : decodeCellsAux l ys seen = some (.ok (cells, seen'))) :
    cells.length = ys.length := by
  induction ys generalizing seen cells with
  | nil =>
    unfold decodeCellsAux at h
    simp only [Option.some.injEq, Except.ok.injEq, Prod.mk.injEq] at h
    rw [← h.1]
    rfl
  | cons y ys ih =>
    obtain ⟨cell, cells1, rfl, -, -, -, hrec⟩ := decodeCellsAux_ok_cons h
    simpa using ih hrec

theorem decodeLinesAux_count {ls : List (List Nat)} {seen : List Piece}
    {rows : List (List (Option Piece))}
    (h : decodeLinesAux ls seen = some (.ok rows)) (hn : seen.Nodup) (q : Piece) :
    rows.flatten.count (some q) + seen.count q ≤ 1 := by
  induction ls generalizing seen rows with
  | nil =>
    unfold decodeLinesAux at h
    simp only [Option.some.injEq, Except.ok.injEq] at h
    rw [← h]
    simpa using List.nodup_iff_count_le_one.mp hn q
  | cons l ls ih =>
    obtain ⟨cells, seen', rows1, rfl, -, hc, hrest⟩ := decodeLinesAux_ok_cons h
    have h1 := decodeCellsAux_count hc q
    have h2 := ih hrest (decodeCellsAux_nodup hc hn)
    simp only [List.flatten_cons, List.count_append]
    omega

theorem decodeLinesAux_shape {ls : List (List Nat)} {seen : List Piece}
    {rows : List (List (Option Piece))}
    (h : decodeLinesAux ls seen = some (.ok rows)) :
    rows.length = ls.length ∧ ∀ r ∈ rows, r.length = 4 := by
  induction ls generalizing seen rows with
  | nil =>
    unfold decodeLinesAux at h
    simp only [Option.some.injEq, Except.ok.injEq] at h
    rw [← h]
    simp
  | cons l ls ih =>
    obtain ⟨cells, seen', rows1, rfl, -, hc, hrest⟩ := decodeLinesAux_ok_cons h
    obtain ⟨hlen, hall⟩ := ih hrest
    refine ⟨by simpa using hlen, ?_⟩
    intro r hr
    rcases List.mem_cons.mp hr with rfl | hr
    · exact decodeCellsAux_length hc
    · exact hall r hr

theorem exists_four {α : Type} {l : List α} (h : l.length = 4) :
    ∃ a b c d, l = [a, b, c, d] := by
  rcases l with _ | ⟨a, _ | ⟨b, _ | ⟨c, _ | ⟨d, _ | ⟨e, t⟩⟩⟩⟩⟩
  · simp at h
  · simp at h
  · simp at h
  · simp at h
  · exact ⟨a, b, c, d, rfl⟩
  · simp at h

/-- Claim C7: a successfully decoded board never contains the same piece in
two cells (every piece occurs at most once among the 16 cells), and the
concrete text with `BSCF` in two cells fails with the decoder's error value
(`InvalidPieceError`, the single error kind `QuartoError` provides for
this). -/
theorem decode_rejects_duplicates :
    (∀ (t : List Nat) (b : Board) (p : Piece),
      boardTryFrom t = some (.ok b) → (boardCells b).count (some p) ≤ 1) ∧
    boardTryFrom dupText = some (.error .InvalidPieceError) := by
  constructor
  · intro t b p h
    unfold boardTryFrom at h
    simp only [] at h
    split at h
    · simp at h
    · rename_i hlen4
      split at h
      · exact Option.noConfusion h
      · simp at h
      · rename_i rows hrows
        simp only [Option.some.injEq, Except.ok.injEq] at h
        obtain ⟨hlen, hr4⟩ := decodeLinesAux_shape hrows
        have hcount := decodeLinesAux_count hrows List.nodup_nil p
        have hrows4 : rows.length = 4 := by
          rw [hlen, not_not.mp hlen4]
        obtain ⟨r0, r1, r2, r3, rfl⟩ := exists_four hrows4
        obtain ⟨a0, a1, a2, a3, rfl⟩ :=
          exists_four (hr4 r0 (by simp))
        obtain ⟨b0, b1, b2, b3, rfl⟩ :=
          exists_four (hr4 r1 (by simp))
        obtain ⟨c0, c1, c2, c3, rfl⟩ :=
          exists_four (hr4 r2 (by simp))
        obtain ⟨d0, d1, d2, d3, rfl⟩ :=
          exists_four (hr4 r3 (by simp))
        rw [← h]
        simpa [boardCells, boardRows, toBoard, List.count_append,
          List.count_cons] using hcount
  · decide

/-- Witness for C7 at the blank board text, which decodes successfully. -/
theorem decode_rejects_duplicates_witness :
    boardTryFrom blankText = some (.ok emptyBoard) ∧
    (boardCells emptyBoard).count (some bscf) ≤ 1 := by
  have hb : boardTryFrom blankText = some (.ok emptyGrid) := by decide
  have hb' : boardTryFrom blankText = some (.ok emptyBoard) := by
    rw [hb, emptyGrid_eq]
  exact ⟨hb', decode_rejects_duplicates.1 blankText emptyBoard bscf hb'⟩

theorem spl_no10 {t : List Nat} (h10 : 10 ∉ t) (hne : t ≠ []) :
    splitInclusive t = [t] := by
  induction t with
  | nil => exact absurd rfl hne
  | cons b t' ih =>
    have hb : b ≠ 10 := fun e => h10 (by simp [e])
    have h10' : 10 ∉ t' := fun e => h10 (by simp [e])
    unfold splitInclusive
    rw [if_neg hb]
    cases t' with
    | nil => rfl
    | cons d t'' => rw [ih h10' (by simp)]

theorem spl_first {p : List Nat} (r : List Nat) (h10 : 10 ∉ p) :
    splitInclusive (p ++ 10 :: r) = (p ++ [10]) :: splitInclusive r := by
  induction p with
  | nil =>
    simp only [List.nil_append, splitInclusive]
    simp
  | cons b p' ih =>
    have hb : b ≠ 10 := fun e => h10 (by simp [e])
    have h10' : 10 ∉ p' := fun e => h10 (by simp [e])
    rw [List.cons_append]
    simp only [splitInclusive]
    rw [if_neg hb, ih h10']
    simp

theorem rustLineOf_no10 {l : List Nat} (h : l.getLast? ≠ some 10) :
    rustLineOf l = l := by
  unfold rustLineOf
  rw [if_neg h]

theorem rustLineOf_append10 {l : List Nat} {c : Nat} (hc : l.getLast? = some c)
    (h13 : c ≠ 13) : rustLineOf (l ++ [10]) = l := by
  unfold rustLineOf
  rw [List.getLast?_concat, if_pos rfl, List.dropLast_concat, hc,
    if_neg fun e => h13 (Option.some.inj e)]

theorem spl_cons10 (r : List Nat) :
    splitInclusive (10 :: r) = [10] :: splitInclusive r := by
  have h := spl_first (p := []) r (by simp)
  simpa using h

theorem first_split {t : List Nat} (h : 10 ∈ t) :
    ∃ p r, t = p ++ 10 :: r ∧ 10 ∉ p := by
  induction t with
  | nil => exact absurd h (List.not_mem_nil 10)
  | cons b t' ih =>
    by_cases hb : b = 10
    · exact ⟨[], t', by simp [hb], by simp⟩
    · have hm : 10 ∈ t' := by
        rcases List.mem_cons.mp h with e | e
        · exact absurd e.symm hb
        · exact e
      obtain ⟨p, r, rfl, hp⟩ := ih hm
      refine ⟨b :: p, r, by simp, ?_⟩
      intro e
      rcases List.mem_cons.mp e with e' | e'
      · exact hb e'.symm
      · exact hp e'

theorem getLast?_cons_of_ne_nil {b : Nat} {l : List Nat} (h : l ≠ []) :
    (b :: l).getLast? = l.getLast? := by
  cases l with
  | nil => exact absurd rfl h
  | cons d t => exact List.getLast?_cons_cons

theorem rustLines_append_newline :
    ∀ (t : List Nat) (c : Nat), t.getLast? = some c → c ≠ 10 → c ≠ 13 →
      rustLines (t ++ [10]) = rustLines t := by
  intro t
  induction t with
  | nil =>
    intro c hc _ _
    simp at hc
  | cons b t' ih =>
    intro c hc h10 h13
    by_cases hb : b = 10
    · subst hb
      cases t' with
      | nil =>
        simp at hc
        omega
      | cons d t'' =>
        have hlast : (d :: t'').getLast? = some c := by
          simpa using hc
        have htail := ih c hlast h10 h13
        unfold rustLines at htail ⊢
        rw [List.cons_append, spl_cons10, spl_cons10]
        simp only [List.map_cons]
        rw [htail]
    · by_cases hmem : 10 ∈ t'
      · obtain ⟨p, r, rfl, hp⟩ := first_split hmem
        have h10bp : 10 ∉ b :: p := by
          intro e
          rcases List.mem_cons.mp e with e' | e'
          · exact hb e'.symm
          · exact hp e'
        cases r with
        | nil =>
          exfalso
          have : (b :: (p ++ [10])).getLast? = some 10 := by
            rw [show b :: (p ++ [10]) = (b :: p) ++ [10] from by simp,
              List.getLast?_concat]
          rw [this] at hc
          injection hc with e
          exact h10 e.symm
        | cons e r' =>
          have hlast : (p ++ 10 :: e :: r').getLast? = some c := by
            rw [getLast?_cons_of_ne_nil (by simp)] at hc
            exact hc
          have htail := ih c hlast h10 h13
          unfold rustLines at htail ⊢
          rw [show p ++ 10 :: e :: r' ++ [10] = p ++ 10 :: ((e :: r') ++ [10]) from by
            simp] at htail
          rw [spl_first ((e :: r') ++ [10]) hp, spl_first (e :: r') hp] at htail
          simp only [List.map_cons, List.cons.injEq] at htail
          rw [show (b :: (p ++ 10 :: e :: r')) ++ [10] =
            (b :: p) ++ 10 :: ((e :: r') ++ [10]) from by simp,
            show b :: (p ++ 10 :: e :: r') = (b :: p) ++ 10 :: (e :: r') from by simp,
            spl_first ((e :: r') ++ [10]) h10bp, spl_first (e :: r') h10bp]
          simp only [List.map_cons, List.cons.injEq]
          exact ⟨trivial, htail.2⟩
      · have hnot : 10 ∉ b :: t' := by
          intro e
          rcases List.mem_cons.mp e with e' | e'
          · exact hb e'.symm
          · exact hmem e'
        have hno : (b :: t').getLast? ≠ some 10 := by
          rw [hc]
          exact fun e => h10 (Option.some.inj e)
        unfold rustLines
        rw [show (b :: t') ++ [10] = (b :: t') ++ 10 :: [] from rfl,
          spl_first [] hnot, spl_no10 hnot (by simp)]
        simp only [List.map_cons, List.map_nil, splitInclusive]
        rw [rustLineOf_append10 hc h13, rustLineOf_no10 hno]

theorem rustLines_cons10 (t : List Nat) :
    rustLines (10 :: t) = [] :: rustLines t := by
  unfold rustLines
  rw [spl_cons10]
  simp only [List.map_cons, List.cons.injEq]
  exact ⟨by decide, trivial⟩

theorem boardTryFrom_ok_lines {t : List Nat} {b : Board}
    (h : boardTryFrom t = some (.ok b)) : (rustLines t).length = 4 := by
  unfold boardTryFrom at h
  simp only [] at h
  split at h
  · simp at h
  · rename_i h4
    exact not_not.mp h4

theorem boardTryFrom_rustLines_congr {t t' : List Nat}
    (h : rustLines t = rustLines t') : boardTryFrom t = boardTryFrom t' := by
  unfold boardTryFrom
  rw [h]

/-- Claim C10 as amended: for every accepted board text whose final byte is
neither a newline nor a carriage return (in particular every canonical
encoding), appending a single newline is also accepted with the same board;
prepending a newline always makes decoding fail.  (For an accepted text
that already ends in a newline, appending another one fails, as the
counterexample shows, and a final carriage return would be swallowed by the
line splitter, breaking the 19-byte length.) -/
theorem append_prepend_newline_behavior :
    ∀ (t : List Nat) (b : Board), boardTryFrom t = some (.ok b) →
      (∀ c : Nat, t.getLast? = some c → c ≠ 10 → c ≠ 13 →
        boardTryFrom (t ++ [10]) = some (.ok b)) ∧
      boardTryFrom (10 :: t) = some (.error .InvalidPieceError) := by
  intro t b h
  constructor
  · intro c hc h10 h13
    rw [boardTryFrom_rustLines_congr (rustLines_append_newline t c hc h10 h13)]
    exact h
  · have hlen := boardTryFrom_ok_lines h
    unfold boardTryFrom
    simp only []
    rw [if_pos]
    rw [rustLines_cons10]
    simp [hlen]

/-- Witness for the amended C10 at the blank board text, whose last byte is
a space. -/
theorem append_prepend_newline_behavior_witness :
    boardTryFrom (blankText ++ [10]) = some (.ok emptyBoard) ∧
    boardTryFrom (10 :: blankText) = some (.error .InvalidPieceError) := by
  have hb : boardTryFrom blankText = some (.ok emptyGrid) := by decide
  have hb' : boardTryFrom blankText = some (.ok emptyBoard) := by
    rw [hb, emptyGrid_eq]
  obtain ⟨h1, h2⟩ := append_prepend_newline_behavior blankText emptyBoard hb'
  exact ⟨h1 32 (by decide) (by decide) (by decide), h2⟩

theorem cellBytes_facts : ∀ c : Option Piece,
    (cellBytes c).length = 4 ∧ ∀ x ∈ cellBytes c, x < 128 ∧ x ≠ 10 ∧ x ≠ 13 := by
  decide

theorem cell_roundtrip : ∀ c : Option Piece, cellFrom (cellBytes c) = some c := by
  decide

theorem contAt_ascii {l : List Nat} (h : ∀ x ∈ l, x < 128) (i : Nat) :
    contAt l i = false := by
  unfold contAt
  cases hg : l.get? i with
  | none => rfl
  | some b =>
    have hb := h b (List.get?_mem hg)
    simp only [decide_eq_false_iff_not]
    omega

/-- The seen-set update for one decoded cell. -/
def addCell (c : Option Piece) (seen : List Piece) : List Piece :=
  match c with
  | some p => p :: seen
  | none => seen

/-- The seen-set update for a list of decoded cells. -/
def addCells (cs : List (Option Piece)) (seen : List Piece) : List Piece :=
  cs.foldl (fun s c => addCell c s) seen

theorem mem_addCells {q : Piece} : ∀ {cs : List (Option Piece)} {seen : List Piece},
    (q ∈ addCells cs seen ↔ some q ∈ cs ∨ q ∈ seen) := by
  intro cs
  induction cs with
  | nil => intro seen; simp [addCells]
  | cons c cs ih =>
    intro seen
    show q ∈ addCells cs (addCell c seen) ↔ _
    rw [ih]
    cases c with
    | some p =>
      simp only [addCell, List.mem_cons]
      constructor
      · rintro (h | hq | hq)
        · exact Or.inl (Or.inr h)
        · exact Or.inl (Or.inl (by rw [hq]))
        · exact Or.inr hq
      · rintro ((hq | h) | hq)
        · exact Or.inr (Or.inl (Option.some.inj hq.symm).symm)
        · exact Or.inl h
        · exact Or.inr (Or.inr hq)
    | none =>
      simp only [addCell, List.mem_cons]
      constructor
      · rintro (h | hq)
        · exact Or.inl (Or.inr h)
        · exact Or.inr hq
      · rintro ((hq | h) | hq)
        · exact absurd hq.symm (by simp)
        · exact Or.inl h
        · exact Or.inr hq

theorem decodeCellsAux_step {l : List Nat} {y : Nat} {ys : List Nat}
    {seen : List Piece} {c : Option Piece}
    (hslice : cellFrom ((l.drop (5 * y)).take 4) = some c)
    (hcont : contAt l (5 * y) = false) (hcont4 : contAt l (5 * y + 4) = false)
    (hnodup : ∀ p, c = some p → p ∉ seen)
    (hsp : spacerCheck l y = some (.ok ())) :
    decodeCellsAux l (y :: ys) seen =
      (match decodeCellsAux l ys (addCell c seen) with
       | none => none
       | some (.error e) => some (.error e)
       | some (.ok (cells, seenOut)) => some (.ok (c :: cells, seenOut))) := by
  conv_lhs => rw [decodeCellsAux]
  rw [hcont, hcont4]
  simp only [Bool.or_self, Bool.false_eq_true, if_false, hslice]
  cases c with
  | some p =>
    have hp : p ∉ seen := hnodup p rfl
    simp only [decide_eq_true_eq, hp, if_false, hsp, addCell]
  | none =>
    simp only [Bool.false_eq_true, if_false, hsp, addCell]

theorem contAt_lt {v : Nat} (h : v < 128) :
    decide (128 ≤ v ∧ v < 192) = false := by
  simp only [decide_eq_false_iff_not]
  omega

theorem encodeRow_eq (c0 c1 c2 c3 : Option Piece) :
    encodeRow [c0, c1, c2, c3] =
      cellBytes c0 ++ 32 :: (cellBytes c1 ++ 32 :: (cellBytes c2 ++
        32 :: (cellBytes c3 ++ []))) := rfl

theorem encodeRow_bytes (c0 c1 c2 c3 : Option Piece) :
    ∀ x ∈ encodeRow [c0, c1, c2, c3], x < 128 ∧ x ≠ 10 ∧ x ≠ 13 := by
  intro x hx
  rw [encodeRow_eq] at hx
  simp only [List.mem_append, List.mem_cons, List.append_nil] at hx
  rcases hx with hx | hx | hx | hx | hx | hx | hx
  · exact (cellBytes_facts c0).2 x hx
  · subst hx
    omega
  · exact (cellBytes_facts c1).2 x hx
  · subst hx
    omega
  · exact (cellBytes_facts c2).2 x hx
  · subst hx
    omega
  · exact (cellBytes_facts c3).2 x hx

theorem encodeRow_length (c0 c1 c2 c3 : Option Piece) :
    (encodeRow [c0, c1, c2, c3]).length = 19 := by
  rw [encodeRow_eq]
  simp [List.length_append, (cellBytes_facts c0).1, (cellBytes_facts c1).1,
    (cellBytes_facts c2).1, (cellBytes_facts c3).1]

theorem decodeRow (c0 c1 c2 c3 : Option Piece) (seen : List Piece)
    (h0 : ∀ p, c0 = some p → p ∉ seen)
    (h1 : ∀ p, c1 = some p → p ∉ addCell c0 seen)
    (h2 : ∀ p, c2 = some p → p ∉ addCell c1 (addCell c0 seen))
    (h3 : ∀ p, c3 = some p → p ∉ addCell c2 (addCell c1 (addCell c0 seen))) :
    decodeCellsAux (encodeRow [c0, c1, c2, c3]) [0, 1, 2, 3] seen =
      some (.ok ([c0, c1, c2, c3],
        addCell c3 (addCell c2 (addCell c1 (addCell c0 seen))))) := by
  obtain ⟨a0, a1, a2, a3, ha⟩ := exists_four (cellBytes_facts c0).1
  obtain ⟨b0, b1, b2, b3, hb⟩ := exists_four (cellBytes_facts c1).1
  obtain ⟨d0, d1, d2, d3, hd⟩ := exists_four (cellBytes_facts c2).1
  obtain ⟨e0, e1, e2, e3, he⟩ := exists_four (cellBytes_facts c3).1
  have fa := (cellBytes_facts c0).2
  have fb := (cellBytes_facts c1).2
  have fd := (cellBytes_facts c2).2
  have fe := (cellBytes_facts c3).2
  rw [ha] at fa
  rw [hb] at fb
  rw [hd] at fd
  rw [he] at fe
  have hline : encodeRow [c0, c1, c2, c3] =
      [a0, a1, a2, a3, 32, b0, b1, b2, b3, 32, d0, d1, d2, d3, 32,
        e0, e1, e2, e3] := by
    rw [encodeRow_eq, ha, hb, hd, he]
    rfl
  have hs0 : cellFrom [a0, a1, a2, a3] = some c0 := by
    rw [← ha]
    exact cell_roundtrip c0
  have hs1 : cellFrom [b0, b1, b2, b3] = some c1 := by
    rw [← hb]
    exact cell_roundtrip c1
  have hs2 : cellFrom [d0, d1, d2, d3] = some c2 := by
    rw [← hd]
    exact cell_roundtrip c2
  have hs3 : cellFrom [e0, e1, e2, e3] = some c3 := by
    rw [← he]
    exact cell_roundtrip c3
  have hsp0 : spacerCheck [a0, a1, a2, a3, 32, b0, b1, b2, b3, 32, d0, d1, d2,
      d3, 32, e0, e1, e2, e3] 0 = some (.ok ()) := by
    have hcb : contAt [a0, a1, a2, a3, 32, b0, b1, b2, b3, 32, d0, d1, d2, d3,
        32, e0, e1, e2, e3] (5 * 0 + 5) = false := contAt_lt (fb b0 (by simp)).1
    unfold spacerCheck
    simp only [hcb]
    rfl
  have hsp1 : spacerCheck [a0, a1, a2, a3, 32, b0, b1, b2, b3, 32, d0, d1, d2,
      d3, 32, e0, e1, e2, e3] 1 = some (.ok ()) := by
    have hcb : contAt [a0, a1, a2, a3, 32, b0, b1, b2, b3, 32, d0, d1, d2, d3,
        32, e0, e1, e2, e3] (5 * 1 + 5) = false := contAt_lt (fd d0 (by simp)).1
    unfold spacerCheck
    simp only [hcb]
    rfl
  have hsp2 : spacerCheck [a0, a1, a2, a3, 32, b0, b1, b2, b3, 32, d0, d1, d2,
      d3, 32, e0, e1, e2, e3] 2 = some (.ok ()) := by
    have hcb : contAt [a0, a1, a2, a3, 32, b0, b1, b2, b3, 32, d0, d1, d2, d3,
        32, e0, e1, e2, e3] (5 * 2 + 5) = false := contAt_lt (fe e0 (by simp)).1
    unfold spacerCheck
    simp only [hcb]
    rfl
  rw [hline]
  rw [decodeCellsAux_step
    (l := [a0, a1, a2, a3, 32, b0, b1, b2, b3, 32, d0, d1, d2, d3, 32,
      e0, e1, e2, e3]) (y := 0) (c := c0)
    hs0 (contAt_lt (fa a0 (by simp)).1) rfl h0 hsp0]
  rw [decodeCellsAux_step
    (l := [a0, a1, a2, a3, 32, b0, b1, b2, b3, 32, d0, d1, d2, d3, 32,
      e0, e1, e2, e3]) (y := 1) (c := c1)
    hs1 (contAt_lt (fb b0 (by simp)).1) rfl h1 hsp1]
  rw [decodeCellsAux_step
    (l := [a0, a1, a2, a3, 32, b0, b1, b2, b3, 32, d0, d1, d2, d3, 32,
      e0, e1, e2, e3]) (y := 2) (c := c2)
    hs2 (contAt_lt (fd d0 (by simp)).1) rfl h2 hsp2]
  rw [decodeCellsAux_step
    (l := [a0, a1, a2, a3, 32, b0, b1, b2, b3, 32, d0, d1, d2, d3, 32,
      e0, e1, e2, e3]) (y := 3) (c := c3)
    hs3 (contAt_lt (fe e0 (by simp)).1) rfl h3 rfl]
  rfl

theorem encodeRow_ne_nil (c0 c1 c2 c3 : Option Piece) :
    encodeRow [c0, c1, c2, c3] ≠ [] := by
  intro e
  have h := encodeRow_length c0 c1 c2 c3
  rw [e] at h
  simp at h

theorem encodeRow_no10 (c0 c1 c2 c3 : Option Piece) :
    10 ∉ encodeRow [c0, c1, c2, c3] :=
  fun hx => (encodeRow_bytes c0 c1 c2 c3 10 hx).2.1 rfl

theorem encodeRow_last (c0 c1 c2 c3 : Option Piece) :
    ∃ c, (encodeRow [c0, c1, c2, c3]).getLast? = some c ∧ c ≠ 10 ∧ c ≠ 13 := by
  cases hgl : (encodeRow [c0, c1, c2, c3]).getLast? with
  | none =>
    rw [List.getLast?_eq_none_iff] at hgl
    exact absurd hgl (encodeRow_ne_nil c0 c1 c2 c3)
  | some c =>
    have hc := List.mem_of_getLast?_eq_some hgl
    exact ⟨c, rfl, (encodeRow_bytes c0 c1 c2 c3 c hc).2.1,
      (encodeRow_bytes c0 c1 c2 c3 c hc).2.2⟩

theorem rustLines_encode (b : Board) :
    rustLines (encodeBoard b) =
      [encodeRow [b 0 0, b 0 1, b 0 2, b 0 3],
       encodeRow [b 1 0, b 1 1, b 1 2, b 1 3],
       encodeRow [b 2 0, b 2 1, b 2 2, b 2 3],
       encodeRow [b 3 0, b 3 1, b 3 2, b 3 3]] := by
  obtain ⟨k0, hk0, hk010, hk013⟩ := encodeRow_last (b 0 0) (b 0 1) (b 0 2) (b 0 3)
  obtain ⟨k1, hk1, hk110, hk113⟩ := encodeRow_last (b 1 0) (b 1 1) (b 1 2) (b 1 3)
  obtain ⟨k2, hk2, hk210, hk213⟩ := encodeRow_last (b 2 0) (b 2 1) (b 2 2) (b 2 3)
  obtain ⟨k3, hk3, hk310, hk313⟩ := encodeRow_last (b 3 0) (b 3 1) (b 3 2) (b 3 3)
  have hform : encodeBoard b =
      encodeRow [b 0 0, b 0 1, b 0 2, b 0 3] ++ 10 ::
        (encodeRow [b 1 0, b 1 1, b 1 2, b 1 3] ++ 10 ::
          (encodeRow [b 2 0, b 2 1, b 2 2, b 2 3] ++ 10 ::
            (encodeRow [b 3 0, b 3 1, b 3 2, b 3 3] ++ []))) := rfl
  unfold rustLines
  rw [hform, List.append_nil,
    spl_first _ (encodeRow_no10 (b 0 0) (b 0 1) (b 0 2) (b 0 3)),
    spl_first _ (encodeRow_no10 (b 1 0) (b 1 1) (b 1 2) (b 1 3)),
    spl_first _ (encodeRow_no10 (b 2 0) (b 2 1) (b 2 2) (b 2 3)),
    spl_no10 (encodeRow_no10 (b 3 0) (b 3 1) (b 3 2) (b 3 3))
      (encodeRow_ne_nil (b 3 0) (b 3 1) (b 3 2) (b 3 3))]
  simp only [List.map_cons, List.map_nil]
  rw [rustLineOf_append10 hk0 hk013, rustLineOf_append10 hk1 hk113,
    rustLineOf_append10 hk2 hk213,
    rustLineOf_no10 (by rw [hk3]; exact fun e => hk310 (Option.some.inj e))]

theorem decodeLinesAux_step {l : List Nat} {ls : List (List Nat)}
    {seen seen' : List Piece} {cells : List (Option Piece)}
    (hlen : l.length = 19)
    (hcells : decodeCellsAux l [0, 1, 2, 3] seen = some (.ok (cells, seen'))) :
    decodeLinesAux (l :: ls) seen =
      (match decodeLinesAux ls seen' with
       | none => none
       | some (.error e) => some (.error e)
       | some (.ok rows) => some (.ok (cells :: rows))) := by
  conv_lhs => rw [decodeLinesAux]
  rw [if_neg (by simp [hlen]), hcells]

theorem mem_addCell {q : Piece} {c : Option Piece} {seen : List Piece} :
    q ∈ addCell c seen ↔ c = some q ∨ q ∈ seen := by
  cases c <;> simp [addCell, eq_comm]

theorem row_conds {seen : List Piece} {c0 c1 c2 c3 : Option Piece}
    (hnd : ([c0, c1, c2, c3].filterMap id).Nodup)
    (hdis : ∀ p : Piece, some p ∈ [c0, c1, c2, c3] → p ∉ seen) :
    (∀ p, c0 = some p → p ∉ seen) ∧
    (∀ p, c1 = some p → p ∉ addCell c0 seen) ∧
    (∀ p, c2 = some p → p ∉ addCell c1 (addCell c0 seen)) ∧
    (∀ p, c3 = some p → p ∉ addCell c2 (addCell c1 (addCell c0 seen))) := by
  refine ⟨?_, ?_, ?_, ?_⟩
  · intro p hp hm
    exact hdis p (by simp [hp]) hm
  · intro p hp hm
    rw [mem_addCell] at hm
    rcases hm with e | e
    · subst hp
      subst e
      simp [List.filterMap_cons] at hnd
    · exact hdis p (by simp [hp]) e
  · intro p hp hm
    rw [mem_addCell, mem_addCell] at hm
    rcases hm with e | e | e
    · subst hp
      subst e
      rcases c0 with _ | q0 <;> simp [List.filterMap_cons] at hnd
    · subst hp
      subst e
      rcases c1 with _ | q1 <;> simp [List.filterMap_cons] at hnd
    · exact hdis p (by simp [hp]) e
  · intro p hp hm
    rw [mem_addCell, mem_addCell, mem_addCell] at hm
    rcases hm with e | e | e | e
    · subst hp
      subst e
      rcases c0 with _ | q0 <;> rcases c1 with _ | q1 <;>
        simp [List.filterMap_cons] at hnd
    · subst hp
      subst e
      rcases c0 with _ | q0 <;> rcases c2 with _ | q2 <;>
        simp [List.filterMap_cons] at hnd
    · subst hp
      subst e
      rcases c1 with _ | q1 <;> rcases c2 with _ | q2 <;>
        simp [List.filterMap_cons] at hnd
    · exact hdis p (by simp [hp]) e

theorem cond_from_nodup {u w : List (Option Piece)}
    (hnd : ((u ++ w).filterMap id).Nodup) :
    ∀ p : Piece, some p ∈ w → p ∉ addCells u [] := by
  intro p hw hm
  rw [mem_addCells] at hm
  rcases hm with hm | hm
  · rw [List.filterMap_append] at hnd
    exact List.disjoint_of_nodup_append hnd
      (List.mem_filterMap.mpr ⟨some p, hm, rfl⟩)
      (List.mem_filterMap.mpr ⟨some p, hw, rfl⟩)
  · exact absurd hm (List.not_mem_nil p)

/-- The claim's hypothesis: no piece occupies two cells of the board. -/
def noDupPieces (b : Board) : Prop :=
  ((boardCells b).filterMap id).Nodup

instance (b : Board) : Decidable (noDupPieces b) :=
  inferInstanceAs (Decidable (((boardCells b).filterMap id).Nodup))

/-- Claim C5: decoding the canonical encoding of any board whose cells hold
no duplicate piece gives back exactly that board. -/
theorem decode_encode_roundtrip :
    ∀ b : Board, noDupPieces b → boardTryFrom (encodeBoard b) = some (.ok b) := by
  intro b hnd
  unfold noDupPieces at hnd
  have hr0 : (([b 0 0, b 0 1, b 0 2, b 0 3].filterMap
      (id : Option Piece → Option Piece)).Nodup) := by
    have h : (([b 0 0, b 0 1, b 0 2, b 0 3] ++
        [b 1 0, b 1 1, b 1 2, b 1 3, b 2 0, b 2 1, b 2 2, b 2 3,
         b 3 0, b 3 1, b 3 2, b 3 3]).filterMap
        (id : Option Piece → Option Piece)).Nodup := hnd
    rw [List.filterMap_append] at h
    exact h.of_append_left
  have hr1 : (([b 1 0, b 1 1, b 1 2, b 1 3].filterMap
      (id : Option Piece → Option Piece)).Nodup) := by
    have h : (([b 0 0, b 0 1, b 0 2, b 0 3] ++
        ([b 1 0, b 1 1, b 1 2, b 1 3] ++
         [b 2 0, b 2 1, b 2 2, b 2 3, b 3 0, b 3 1, b 3 2, b 3 3])).filterMap
        (id : Option Piece → Option Piece)).Nodup := hnd
    rw [List.filterMap_append, List.filterMap_append] at h
    exact h.of_append_right.of_append_left
  have hr2 : (([b 2 0, b 2 1, b 2 2, b 2 3].filterMap
      (id : Option Piece → Option Piece)).Nodup) := by
    have h : (([b 0 0, b 0 1, b 0 2, b 0 3, b 1 0, b 1 1, b 1 2, b 1 3] ++
        ([b 2 0, b 2 1, b 2 2, b 2 3] ++ [b 3 0, b 3 1, b 3 2, b 3 3])).filterMap
        (id : Option Piece → Option Piece)).Nodup := hnd
    rw [List.filterMap_append, List.filterMap_append] at h
    exact h.of_append_right.of_append_left
  have hr3 : (([b 3 0, b 3 1, b 3 2, b 3 3].filterMap
      (id : Option Piece → Option Piece)).Nodup) := by
    have h : (([b 0 0, b 0 1, b 0 2, b 0 3, b 1 0, b 1 1, b 1 2, b 1 3,
        b 2 0, b 2 1, b 2 2, b 2 3] ++ [b 3 0, b 3 1, b 3 2, b 3 3]).filterMap
        (id : Option Piece → Option Piece)).Nodup := hnd
    rw [List.filterMap_append] at h
    exact h.of_append_right
  obtain ⟨g00, g01, g02, g03⟩ :=
    row_conds hr0
      (fun p _ (hm : p ∈ ([] : List Piece)) => absurd hm (List.not_mem_nil p))
  obtain ⟨g10, g11, g12, g13⟩ := row_conds hr1
    (fun p hp => cond_from_nodup (u := [b 0 0, b 0 1, b 0 2, b 0 3])
      (w := [b 1 0, b 1 1, b 1 2, b 1 3, b 2 0, b 2 1, b 2 2, b 2 3,
        b 3 0, b 3 1, b 3 2, b 3 3]) hnd p
      (by simp only [List.mem_cons] at hp ⊢; tauto))
  obtain ⟨g20, g21, g22, g23⟩ := row_conds hr2
    (fun p hp => cond_from_nodup
      (u := [b 0 0, b 0 1, b 0 2, b 0 3, b 1 0, b 1 1, b 1 2, b 1 3])
      (w := [b 2 0, b 2 1, b 2 2, b 2 3, b 3 0, b 3 1, b 3 2, b 3 3]) hnd p
      (by simp only [List.mem_cons] at hp ⊢; tauto))
  obtain ⟨g30, g31, g32, g33⟩ := row_conds hr3
    (fun p hp => cond_from_nodup
      (u := [b 0 0, b 0 1, b 0 2, b 0 3, b 1 0, b 1 1, b 1 2, b 1 3,
        b 2 0, b 2 1, b 2 2, b 2 3])
      (w := [b 3 0, b 3 1, b 3 2, b 3 3]) hnd p
      (by simp only [List.mem_cons] at hp ⊢; tauto))
  have hrow0 := decodeRow (b 0 0) (b 0 1) (b 0 2) (b 0 3) [] g00 g01 g02 g03
  have hrow1 := decodeRow (b 1 0) (b 1 1) (b 1 2) (b 1 3)
    (addCell (b 0 3) (addCell (b 0 2) (addCell (b 0 1) (addCell (b 0 0) []))))
    g10 g11 g12 g13
  have hrow2 := decodeRow (b 2 0) (b 2 1) (b 2 2) (b 2 3)
    (addCell (b 1 3) (addCell (b 1 2) (addCell (b 1 1) (addCell (b 1 0)
      (addCell (b 0 3) (addCell (b 0 2) (addCell (b 0 1) (addCell (b 0 0) []))))))))
    g20 g21 g22 g23
  have hrow3 := decodeRow (b 3 0) (b 3 1) (b 3 2) (b 3 3)
    (addCell (b 2 3) (addCell (b 2 2) (addCell (b 2 1) (addCell (b 2 0)
      (addCell (b 1 3) (addCell (b 1 2) (addCell (b 1 1) (addCell (b 1 0)
        (addCell (b 0 3) (addCell (b 0 2) (addCell (b 0 1)
          (addCell (b 0 0) []))))))))))))
    g30 g31 g32 g33
  unfold boardTryFrom
  simp only []
  rw [rustLines_encode b]
  rw [if_neg (by simp)]
  rw [decodeLinesAux_step (encodeRow_length (b 0 0) (b 0 1) (b 0 2) (b 0 3)) hrow0,
    decodeLinesAux_step (encodeRow_length (b 1 0) (b 1 1) (b 1 2) (b 1 3)) hrow1,
    decodeLinesAux_step (encodeRow_length (b 2 0) (b 2 1) (b 2 2) (b 2 3)) hrow2,
    decodeLinesAux_step (encodeRow_length (b 3 0) (b 3 1) (b 3 2) (b 3 3)) hrow3]
  have htb : toBoard [[b 0 0, b 0 1, b 0 2, b 0 3], [b 1 0, b 1 1, b 1 2, b 1 3],
      [b 2 0, b 2 1, b 2 2, b 2 3], [b 3 0, b 3 1, b 3 2, b 3 3]] = b := by
    funext i j
    fin_cases i <;> fin_cases j <;> rfl
  exact congrArg (fun r => some (Except.ok r)) htb

/-- Witness for C5 at the empty board, which trivially has no duplicate
pieces. -/
theorem decode_encode_roundtrip_witness :
    noDupPieces emptyBoard ∧
    boardTryFrom (encodeBoard emptyBoard) = some (.ok emptyBoard) :=
  ⟨by decide, decode_encode_roundtrip emptyBoard (by decide)⟩

end Quarto
